import Mathlib

/-!
Shallow embedding of the retrieval core of the Discordbot-to-Obsidian
repository (src/vault_index.py and src/app.py), together with theorems
settling the frozen claims about it.

Strings are modelled as `List Char`; Python `str` operations (strip, lower,
split, count, replace, the two regular expressions `WORD_RE` and
`PRICE_PATTERN`, and the heading pattern `HEADING_RE`) are translated into
executable Lean functions on `List Char`.  Scores are modelled as `Nat`:
every score produced by the code is a sum of occurrence counts and the
integer constants 2, 3, 8, 20 and 999, on which Python float arithmetic is
exact.  Character classes are modelled over ASCII plus the Danish letters
that the source's regular expressions name explicitly.
-/

namespace VaultSpec

/-- Strings are lists of characters. -/
abbrev Str := List Char

/-- Coerce a Lean string literal to the `List Char` model. -/
def str (s : String) : Str := s.data

/-- Python `\s` (ASCII fragment): the whitespace characters recognised by
`str.strip`, `str.split` and the `\s` class of the source's patterns. -/
def isSpaceCh (c : Char) : Bool :=
  c = ' ' || c = '\t' || c = '\n' || c = '\r' || c = '\x0b' || c = '\x0c'

/-- Python `\w` together with the Danish letters the source's `WORD_RE`
pattern `[\wæøåÆØÅ]+` names (ASCII word characters plus æøåÆØÅ). -/
def isWordCh (c : Char) : Bool :=
  c.isAlphanum || c = '_' ||
  c = 'æ' || c = 'ø' || c = 'å' || c = 'Æ' || c = 'Ø' || c = 'Å'

/-- The letter class `[A-Za-zæøåÆØÅ]` of `_has_letters` and `_split_camel`. -/
def isLetterCh (c : Char) : Bool :=
  c.isAlpha || c = 'æ' || c = 'ø' || c = 'å' || c = 'Æ' || c = 'Ø' || c = 'Å'

/-- Python `str.lower` on the character set in play: ASCII letters plus the
Danish letters ÆØÅ. -/
def pyLowerCh (c : Char) : Char :=
  if c = 'Æ' then 'æ' else if c = 'Ø' then 'ø' else if c = 'Å' then 'å'
  else c.toLower

/-- Python `str.lower`. -/
def lowerS (s : Str) : Str := s.map pyLowerCh

/-- Python `str.lstrip()`. -/
def lstrip (s : Str) : Str := s.dropWhile isSpaceCh

/-- Python `str.rstrip()`. -/
def rstrip (s : Str) : Str := (s.reverse.dropWhile isSpaceCh).reverse

/-- Python `str.strip()`. -/
def strip (s : Str) : Str := rstrip (lstrip s)

/-- Python `str.strip(chars)`: remove the characters of `cs` from both ends. -/
def stripSet (cs : List Char) (s : Str) : Str :=
  ((s.dropWhile (cs.contains ·)).reverse.dropWhile (cs.contains ·)).reverse

/-- Python substring test `needle in hay` (empty needle matches). -/
def isSubstrB (needle : Str) : Str → Bool
  | [] => needle.isEmpty
  | c :: rest => needle.isPrefixOf (c :: rest) || isSubstrB needle rest

/-- Fuel-driven worker for `countOccs` (the fuel is an upper bound on the
number of scan steps, so that the recursion is structural). -/
def countOccsFuel (needle : Str) : Nat → Str → Nat
  | 0, _ => 0
  | _ + 1, [] => 0
  | fuel + 1, c :: rest =>
    if needle.isPrefixOf (c :: rest) then
      1 + countOccsFuel needle fuel ((c :: rest).drop needle.length)
    else
      countOccsFuel needle fuel rest

/-- Python `hay.count(needle)` for a non-empty needle: non-overlapping
occurrences, scanning left to right.  (Every needle passed by the source is
a non-empty token.) -/
def countOccs (needle hay : Str) : Nat := countOccsFuel needle hay.length hay

/-- Fuel-driven worker for `replaceAll`. -/
def replaceAllFuel (needle repl : Str) : Nat → Str → Str
  | 0, s => s
  | _ + 1, [] => []
  | fuel + 1, c :: rest =>
    if needle.isPrefixOf (c :: rest) then
      repl ++ replaceAllFuel needle repl fuel ((c :: rest).drop needle.length)
    else
      c :: replaceAllFuel needle repl fuel rest

/-- Python `s.replace(needle, repl)` for a non-empty needle: replace all
non-overlapping occurrences, scanning left to right.  (Every needle passed
by the source — `"**"`, `"*"`, `"-"`, `"_"` and a matched price — is
non-empty.) -/
def replaceAll (needle repl s : Str) : Str := replaceAllFuel needle repl s.length s

/-- Worker for `splitWs`: `acc` holds the current word, reversed. -/
def splitWsAux (acc : Str) : Str → List Str
  | [] => if acc.isEmpty then [] else [acc.reverse]
  | c :: rest =>
    if isSpaceCh c then
      if acc.isEmpty then splitWsAux [] rest else acc.reverse :: splitWsAux [] rest
    else splitWsAux (c :: acc) rest

/-- Python `str.split()` with no argument: split on whitespace runs,
dropping empty fields. -/
def splitWs (s : Str) : List Str := splitWsAux [] s

/-- Worker for `wordTokens`: maximal runs of `isWordCh`. -/
def wordTokensAux (acc : Str) : Str → List Str
  | [] => if acc.isEmpty then [] else [acc.reverse]
  | c :: rest =>
    if isWordCh c then wordTokensAux (c :: acc) rest
    else if acc.isEmpty then wordTokensAux [] rest
    else acc.reverse :: wordTokensAux [] rest

/-- `WORD_RE.findall`: the maximal runs of word characters, in order. -/
def wordTokens (s : Str) : List Str := wordTokensAux [] s

/-- Worker for `splitLinesPy`: `acc` holds the current line, reversed.
Python `str.splitlines` line boundaries restricted to the characters that
can occur here: `\n`, `\r` and the pair `\r\n`. -/
def splitLinesAux (acc : Str) : Str → List Str
  | [] => if acc.isEmpty then [] else [acc.reverse]
  | '\r' :: '\n' :: rest => acc.reverse :: splitLinesAux [] rest
  | '\r' :: rest => acc.reverse :: splitLinesAux [] rest
  | '\n' :: rest => acc.reverse :: splitLinesAux [] rest
  | c :: rest => splitLinesAux (c :: acc) rest

/-- Python `str.splitlines()` (no trailing empty line). -/
def splitLinesPy (s : Str) : List Str := splitLinesAux [] s

/-- Python `"\n".join(lines)`. -/
def joinNl (lines : List Str) : Str := List.intercalate (str "\n") lines

/-- Python `" ".join(words)`. -/
def joinSp (words : List Str) : Str := List.intercalate (str " ") words

/-- Python `str(n)` for a natural number. -/
def natStr (n : Nat) : Str := Nat.toDigits 10 n

end VaultSpec

namespace VaultSpec

/-! ### vault_index.py: headings and section splitting -/

/-- `HEADING_RE.match(line.strip())` from vault_index.py: the pattern
`^(#{1,6})\s+(.*)` applied to the stripped line.  Returns
`match.group(2).strip()` when the pattern matches.  The `#` run must have
length 1–6 (a seventh `#` makes every backtracking attempt land on `#`
where `\s+` is required), `\s+` munches the maximal whitespace run, and
`.` does not cross a newline. -/
def headingMatch (line : Str) : Option Str :=
  let s := strip line
  let r := (s.takeWhile (· = '#')).length
  if 1 ≤ r && r ≤ 6 then
    match s.drop r with
    | c :: rest =>
      if isSpaceCh c then
        some (strip (((c :: rest).dropWhile isSpaceCh).takeWhile (· ≠ '\n')))
      else none
    | [] => none
  else none

/-- A Section of vault_index.py. -/
structure Section where
  path : Str
  heading : Str
  line_start : Nat
  line_end : Nat
  text : Str
  score : Nat := 0
deriving DecidableEq, Repr

/-- NoteMeta of vault_index.py. -/
structure NoteMeta where
  path : Str
  title : Str
  aliases : List Str
deriving DecidableEq, Repr

/-- Python `lines[a : b + 1]` — the inclusive 0-based slice used for a
section body. -/
def sliceLines (lines : List Str) (a b : Nat) : List Str :=
  (lines.drop a).take (b + 1 - a)

/-- The heading boundaries of `_split_sections`: the 0-based indices of the
lines matching `HEADING_RE`, each with `match.group(2).strip() or "(top)"`. -/
def boundaries (lines : List Str) : List (Nat × Str) :=
  lines.enum.filterMap fun p =>
    (headingMatch p.2).map fun t => (p.1, if t.isEmpty then str "(top)" else t)

/-- The main loop of `_split_sections`: one Section per boundary, each
ending one line before the next boundary, the last one at the final line. -/
def mkSecs (path : Str) (lines : List Str) : List (Nat × Str) → List Section
  | [] => []
  | [(a, h)] =>
    [⟨path, h, a + 1, lines.length,
      strip (joinNl (sliceLines lines a (lines.length - 1))), 0⟩]
  | (a, h) :: (a2, h2) :: rest =>
    ⟨path, h, a + 1, a2, strip (joinNl (sliceLines lines a (a2 - 1))), 0⟩ ::
      mkSecs path lines ((a2, h2) :: rest)

/-- `VaultIndex._split_sections` from vault_index.py. -/
def split_sections (path : Str) (lines : List Str) : List Section :=
  if lines.isEmpty then []
  else
    match boundaries lines with
    | [] => [⟨path, str "(top)", 1, lines.length, strip (joinNl lines), 0⟩]
    | (b0, h0) :: rest =>
      (if 0 < b0 then
        [⟨path, str "(top)", 1, b0, strip (joinNl (lines.take b0)), 0⟩]
      else []) ++ mkSecs path lines ((b0, h0) :: rest)

/-- `os.path.splitext(name)[0]` for a bare filename (no directory
separators): drop the suffix at the last dot, unless every character
before that dot is itself a dot. -/
def splitextRoot (name : Str) : Str :=
  if '.' ∈ name then
    let i := name.length - 1 - name.reverse.indexOf '.'
    let pre := name.take i
    if pre.any (· ≠ '.') then pre else name
  else name

/-- `VaultIndex._detect_title` from vault_index.py: the first non-empty
stripped heading text, else the filename root with `_` and `-` turned to
spaces. -/
def detect_title (lines : List Str) (filename : Str) : Str :=
  match lines.findSome? (fun l =>
      match headingMatch l with
      | some t => if t.isEmpty then none else some t
      | none => none) with
  | some t => t
  | none =>
    replaceAll (str "-") (str " ")
      (replaceAll (str "_") (str " ") (splitextRoot filename))

end VaultSpec

namespace VaultSpec

/-! ### Structural facts about `boundaries` and `mkSecs` -/

/-- Every boundary index lies in `[n, n + length)` of the enumeration start. -/
lemma mem_boundaries_from {lines : List Str} {p : Nat × Str} :
    ∀ {n : Nat},
      p ∈ (List.enumFrom n lines).filterMap (fun q =>
        (headingMatch q.2).map fun t => (q.1, if t.isEmpty then str "(top)" else t)) →
      n ≤ p.1 ∧ p.1 < n + lines.length := by
  induction lines with
  | nil => intro n h; simp at h
  | cons l ls ih =>
    intro n h
    rw [show List.enumFrom n (l :: ls) = (n, l) :: List.enumFrom (n + 1) ls from rfl,
      List.filterMap_cons] at h
    cases hm : headingMatch l with
    | none =>
      rw [hm] at h
      have := ih (n := n + 1) h
      refine ⟨Nat.le_of_succ_le this.1, ?_⟩
      simp only [List.length_cons]
      omega
    | some t =>
      rw [hm] at h
      simp only [Option.map_some] at h
      rcases List.mem_cons.mp h with h | h
      · subst h
        refine ⟨Nat.le_refl _, ?_⟩
        simp only [List.length_cons]
        omega
      · have := ih (n := n + 1) h
        refine ⟨Nat.le_of_succ_le this.1, ?_⟩
        simp only [List.length_cons]
        omega

/-- Boundary indices are strictly increasing. -/
lemma pairwise_boundaries_from (lines : List Str) :
    ∀ (n : Nat),
      ((List.enumFrom n lines).filterMap (fun q =>
        (headingMatch q.2).map fun t => (q.1, if t.isEmpty then str "(top)" else t))).Pairwise
        (fun p q => p.1 < q.1) := by
  induction lines with
  | nil => intro n; simp
  | cons l ls ih =>
    intro n
    rw [show List.enumFrom n (l :: ls) = (n, l) :: List.enumFrom (n + 1) ls from rfl,
      List.filterMap_cons]
    cases hm : headingMatch l with
    | none => exact ih (n + 1)
    | some t =>
      simp only [Option.map_some]
      refine List.Pairwise.cons ?_ (ih (n + 1))
      intro q hq
      have := mem_boundaries_from (p := q) (n := n + 1) hq
      simpa using Nat.lt_of_lt_of_le (Nat.lt_succ_self n) this.1

/-- `boundaries` facts in terms of the public definition. -/
lemma boundaries_mem_lt {lines : List Str} {p : Nat × Str}
    (h : p ∈ boundaries lines) : p.1 < lines.length := by
  have := mem_boundaries_from (p := p) (n := 0) h
  simpa using this.2

lemma boundaries_pairwise (lines : List Str) :
    (boundaries lines).Pairwise (fun p q => p.1 < q.1) :=
  pairwise_boundaries_from lines 0

/-- A document with no heading line has no boundaries. -/
lemma boundaries_eq_nil {lines : List Str}
    (h : ∀ l ∈ lines, headingMatch l = none) : boundaries lines = [] := by
  unfold boundaries
  rw [List.filterMap_eq_nil_iff]
  intro q hq
  have h2 : q.2 ∈ lines := List.snd_mem_of_mem_enum hq
  rw [h q.2 h2]; rfl

/-- A document with a heading line has a boundary. -/
lemma boundaries_ne_nil {lines : List Str} {l : Str}
    (hl : l ∈ lines) (hh : (headingMatch l).isSome) : boundaries lines ≠ [] := by
  intro hcon
  rw [boundaries, List.filterMap_eq_nil_iff] at hcon
  rcases List.getElem_of_mem hl with ⟨i, hi, hil⟩
  have hmem : (i, l) ∈ lines.enum := by
    rw [List.mem_enum_iff_getElem?]
    simp [List.getElem?_eq_getElem hi, hil]
  have := hcon (i, l) hmem
  rw [Option.isSome_iff_exists] at hh
  rcases hh with ⟨t, ht⟩
  simp [ht] at this

/-- Core structural lemma about `mkSecs`: over sorted in-range boundaries it
produces a non-empty run of sections, starting right after the first
boundary, chained end-to-start, ending at the last line, with ordered
line ranges. -/
lemma mkSecs_spec (path : Str) (lines : List Str) :
    ∀ (rest : List (Nat × Str)) (a : Nat) (hd : Str),
      (∀ p ∈ (a, hd) :: rest, p.1 < lines.length) →
      ((a, hd) :: rest).Pairwise (fun p q => p.1 < q.1) →
      ∃ s0 tl, mkSecs path lines ((a, hd) :: rest) = s0 :: tl ∧
        s0.line_start = a + 1 ∧
        List.Chain' (fun x y => y.line_start = x.line_end + 1) (s0 :: tl) ∧
        ((s0 :: tl).getLast (List.cons_ne_nil s0 tl)).line_end = lines.length ∧
        (∀ s ∈ s0 :: tl, s.line_start ≤ s.line_end) := by
  intro rest
  induction rest with
  | nil =>
    intro a hd hlt _
    refine ⟨_, [], rfl, rfl, ?_, rfl, ?_⟩
    · exact List.chain'_singleton _
    · intro s hs
      rcases List.mem_singleton.mp hs with rfl
      have := hlt (a, hd) (List.mem_cons_self _ _)
      simpa using this
  | cons q rest ih =>
    intro a hd hlt hpw
    obtain ⟨a2, h2⟩ := q
    have hlt' : ∀ p ∈ (a2, h2) :: rest, p.1 < lines.length := fun p hp =>
      hlt p (List.mem_cons_of_mem _ hp)
    have hpw' : ((a2, h2) :: rest).Pairwise (fun p q => p.1 < q.1) :=
      (List.pairwise_cons.mp hpw).2
    rcases ih a2 h2 hlt' hpw' with ⟨s0', tl', heq, hstart', hchain', hlast', hle'⟩
    have haa2 : a < a2 := (List.pairwise_cons.mp hpw).1 (a2, h2) (List.mem_cons_self _ _)
    refine ⟨⟨path, hd, a + 1, a2, strip (joinNl (sliceLines lines a (a2 - 1))), 0⟩,
      s0' :: tl', by rw [mkSecs, heq], rfl, ?_, ?_, ?_⟩
    · refine List.chain'_cons.mpr ⟨?_, hchain'⟩
      simpa using hstart'
    · rw [List.getLast_cons (List.cons_ne_nil s0' tl')]
      exact hlast'
    · intro s hs
      rcases List.mem_cons.mp hs with rfl | hs
      · simpa using haa2
      · exact hle' s hs

/-- Slice decomposition for `mkSecs`: the concatenated line slices of its
sections are exactly the lines from the first boundary onwards, and each
section's text is its slice joined with newlines and stripped. -/
lemma mkSecs_slices (path : Str) (lines : List Str) :
    ∀ (rest : List (Nat × Str)) (a : Nat) (hd : Str),
      (∀ p ∈ (a, hd) :: rest, p.1 < lines.length) →
      ((a, hd) :: rest).Pairwise (fun p q => p.1 < q.1) →
      ((mkSecs path lines ((a, hd) :: rest)).map
          (fun s => sliceLines lines (s.line_start - 1) (s.line_end - 1))).flatten
        = lines.drop a ∧
      (∀ s ∈ mkSecs path lines ((a, hd) :: rest),
        s.text = strip (joinNl (sliceLines lines (s.line_start - 1) (s.line_end - 1)))) := by
  intro rest
  induction rest with
  | nil =>
    intro a hd hlt _
    have ha : a < lines.length := by simpa using hlt (a, hd) (List.mem_cons_self _ _)
    constructor
    · show (sliceLines lines (a + 1 - 1) (lines.length - 1) ++ []) = lines.drop a
      rw [List.append_nil]
      show (lines.drop (a + 1 - 1)).take (lines.length - 1 + 1 - (a + 1 - 1)) = lines.drop a
      have h1 : a + 1 - 1 = a := rfl
      have h2 : lines.length - 1 + 1 = lines.length := by omega
      rw [h1, h2]
      exact List.take_of_length_le (by rw [List.length_drop])
    · intro s hs
      rcases List.mem_singleton.mp hs with rfl
      rfl
  | cons q rest ih =>
    intro a hd hlt hpw
    obtain ⟨a2, h2⟩ := q
    have hlt' : ∀ p ∈ (a2, h2) :: rest, p.1 < lines.length := fun p hp =>
      hlt p (List.mem_cons_of_mem _ hp)
    have hpw' : ((a2, h2) :: rest).Pairwise (fun p q => p.1 < q.1) :=
      (List.pairwise_cons.mp hpw).2
    have haa2 : a < a2 := (List.pairwise_cons.mp hpw).1 (a2, h2) (List.mem_cons_self _ _)
    rcases ih a2 h2 hlt' hpw' with ⟨ihflat, ihtext⟩
    constructor
    · show sliceLines lines (a + 1 - 1) (a2 - 1) ++
        ((mkSecs path lines ((a2, h2) :: rest)).map
          (fun s => sliceLines lines (s.line_start - 1) (s.line_end - 1))).flatten
        = lines.drop a
      rw [ihflat]
      show (lines.drop (a + 1 - 1)).take (a2 - 1 + 1 - (a + 1 - 1)) ++ lines.drop a2
        = lines.drop a
      have h1 : a + 1 - 1 = a := rfl
      have h2 : a2 - 1 + 1 = a2 := by omega
      rw [h1, h2]
      have h3 : lines.drop a2 = (lines.drop a).drop (a2 - a) := by
        rw [List.drop_drop]
        congr 1
        omega
      rw [h3]
      exact List.take_append_drop _ _
    · intro s hs
      rcases List.mem_cons.mp hs with rfl | hs
      · rfl
      · exact ihtext s hs

/-- Claim C2: for every non-empty list of document lines, the Sections
returned by `_split_sections` have 1-based inclusive line ranges that are
contiguous and non-overlapping and together cover exactly lines 1 through
the line count: the first section starts at line 1, each subsequent
section starts at the previous section's `line_end + 1`, and the last
section ends at the line count (each range being non-degenerate). -/
theorem split_sections_cover (path : Str) (lines : List Str) (hne : lines ≠ []) :
    ∃ s0 tl, split_sections path lines = s0 :: tl ∧
      s0.line_start = 1 ∧
      List.Chain' (fun x y => y.line_start = x.line_end + 1) (s0 :: tl) ∧
      ((s0 :: tl).getLast (List.cons_ne_nil s0 tl)).line_end = lines.length ∧
      (∀ s ∈ s0 :: tl, s.line_start ≤ s.line_end) := by
  have hE : lines.isEmpty = false := List.isEmpty_eq_false.mpr hne
  have hlen : 0 < lines.length := List.length_pos.mpr hne
  rw [split_sections, hE]
  simp only [Bool.false_eq_true, if_false]
  cases hb : boundaries lines with
  | nil =>
    refine ⟨_, [], rfl, rfl, List.chain'_singleton _, rfl, ?_⟩
    intro s hs
    rcases List.mem_singleton.mp hs with rfl
    simpa using hlen
  | cons q rest =>
    obtain ⟨b0, h0⟩ := q
    have hlt : ∀ p ∈ (b0, h0) :: rest, p.1 < lines.length := by
      intro p hp
      exact boundaries_mem_lt (by rw [hb]; exact hp)
    have hpw : ((b0, h0) :: rest).Pairwise (fun p q => p.1 < q.1) := by
      have := boundaries_pairwise lines
      rwa [hb] at this
    rcases mkSecs_spec path lines rest b0 h0 hlt hpw with
      ⟨s0', tl', heq, hstart', hchain', hlast', hle'⟩
    dsimp only
    by_cases hb0 : 0 < b0
    · rw [if_pos hb0, heq]
      refine ⟨_, s0' :: tl', rfl, rfl, ?_, ?_, ?_⟩
      · refine List.chain'_cons.mpr ⟨?_, hchain'⟩
        simpa using hstart'
      · rw [List.getLast_cons (List.cons_ne_nil s0' tl')]
        exact hlast'
      · intro s hs
        rcases List.mem_cons.mp hs with rfl | hs
        · simpa using hb0
        · exact hle' s hs
    · have hb00 : b0 = 0 := by omega
      rw [if_neg hb0, List.nil_append, heq]
      subst hb00
      exact ⟨s0', tl', rfl, hstart', hchain', hlast', hle'⟩


/-- Witness for C2 at a concrete three-line document with one heading. -/
theorem split_sections_cover_witness :
    ∃ s0 tl, split_sections (str "a.md") [str "x", str "# A", str "y"] = s0 :: tl ∧
      s0.line_start = 1 ∧
      List.Chain' (fun x y => y.line_start = x.line_end + 1) (s0 :: tl) ∧
      ((s0 :: tl).getLast (List.cons_ne_nil s0 tl)).line_end = 3 ∧
      (∀ s ∈ s0 :: tl, s.line_start ≤ s.line_end) :=
  split_sections_cover (str "a.md") [str "x", str "# A", str "y"] (by decide)

/-- Claim C7: a non-empty document with no heading lines splits into exactly
one `"(top)"` Section spanning line 1 to the line count, and an empty
document (zero lines) splits into zero sections. -/
theorem split_sections_no_heading (path : Str) (lines : List Str)
    (hnh : ∀ l ∈ lines, headingMatch l = none) :
    (lines ≠ [] → split_sections path lines =
      [⟨path, str "(top)", 1, lines.length, strip (joinNl lines), 0⟩]) ∧
    split_sections path ([] : List Str) = [] := by
  refine ⟨?_, rfl⟩
  intro hne
  have hE : lines.isEmpty = false := List.isEmpty_eq_false.mpr hne
  rw [split_sections, hE]
  simp only [Bool.false_eq_true, if_false]
  rw [boundaries_eq_nil hnh]

/-- Witness for C7 at a concrete two-line document without headings. -/
theorem split_sections_no_heading_witness :
    ([str "plain", str "lines"] ≠ ([] : List Str) →
      split_sections (str "n.md") [str "plain", str "lines"] =
        [⟨str "n.md", str "(top)", 1, 2, strip (joinNl [str "plain", str "lines"]), 0⟩]) ∧
    split_sections (str "n.md") ([] : List Str) = [] :=
  split_sections_no_heading (str "n.md") [str "plain", str "lines"] (by decide)

/-- Claim C1 is false as stated: for the two-line document `["# H", ""]`
(a heading followed by a blank line) the single produced Section has text
`"# H"` — the `.strip()` applied to each section body drops the trailing
blank line, so concatenating the text fields does not reproduce every
line of the source document. -/
theorem split_sections_concat_counterexample :
    (∃ l ∈ [str "# H", str ""], (headingMatch l).isSome) ∧
    splitLinesPy (joinNl ((split_sections (str "a.md") [str "# H", str ""]).map
        (fun s => s.text))) ≠ [str "# H", str ""] := by
  constructor
  · decide
  · decide

/-- Claim C1 (amended): for every document with at least one heading line,
the sections' 1-based inclusive line ranges concatenate, in order, to
exactly the source lines (every line exactly once), and each Section's
`text` is the newline-join of its line range with surrounding whitespace
stripped (so concatenating the `text` fields alone can drop boundary
whitespace). -/
theorem split_sections_concat (path : Str) (lines : List Str)
    (hh : ∃ l ∈ lines, (headingMatch l).isSome) :
    ((split_sections path lines).map
        (fun s => sliceLines lines (s.line_start - 1) (s.line_end - 1))).flatten = lines ∧
    ∀ s ∈ split_sections path lines,
      s.text = strip (joinNl (sliceLines lines (s.line_start - 1) (s.line_end - 1))) := by
  rcases hh with ⟨l, hl, hsome⟩
  have hne : lines ≠ [] := by
    intro h
    rw [h] at hl
    simp at hl
  have hE : lines.isEmpty = false := List.isEmpty_eq_false.mpr hne
  rw [split_sections, hE]
  simp only [Bool.false_eq_true, if_false]
  cases hb : boundaries lines with
  | nil => exact absurd hb (boundaries_ne_nil hl hsome)
  | cons q rest =>
    obtain ⟨b0, h0⟩ := q
    have hlt : ∀ p ∈ (b0, h0) :: rest, p.1 < lines.length := by
      intro p hp
      exact boundaries_mem_lt (by rw [hb]; exact hp)
    have hpw : ((b0, h0) :: rest).Pairwise (fun p q => p.1 < q.1) := by
      have := boundaries_pairwise lines
      rwa [hb] at this
    rcases mkSecs_slices path lines rest b0 h0 hlt hpw with ⟨hflat, htext⟩
    dsimp only
    by_cases hb0 : 0 < b0
    · rw [if_pos hb0]
      constructor
      · rw [List.map_append, List.flatten_append, hflat]
        show sliceLines lines (1 - 1) (b0 - 1) ++ [] ++ lines.drop b0 = lines
        rw [List.append_nil]
        show (lines.drop (1 - 1)).take (b0 - 1 + 1 - (1 - 1)) ++ lines.drop b0 = lines
        have h2 : b0 - 1 + 1 = b0 := by omega
        rw [show (1 : Nat) - 1 = 0 from rfl, h2, List.drop_zero, Nat.sub_zero]
        exact List.take_append_drop b0 lines
      · intro s hs
        rcases List.mem_append.mp hs with hs | hs
        · rcases List.mem_singleton.mp hs with rfl
          show strip (joinNl (lines.take b0)) = _
          have h2 : b0 - 1 + 1 = b0 := by omega
          show _ = strip (joinNl ((lines.drop (1 - 1)).take (b0 - 1 + 1 - (1 - 1))))
          rw [show (1 : Nat) - 1 = 0 from rfl, h2, List.drop_zero, Nat.sub_zero]
        · exact htext s hs
    · have hb00 : b0 = 0 := by omega
      rw [if_neg hb0, List.nil_append]
      subst hb00
      rw [List.drop_zero] at hflat
      exact ⟨hflat, htext⟩

/-- Witness for C1 (amended) at a concrete document with one heading and a
leading unheaded span. -/
theorem split_sections_concat_witness :
    ((split_sections (str "a.md") [str "intro", str "# A", str "y"]).map
        (fun s => sliceLines [str "intro", str "# A", str "y"]
          (s.line_start - 1) (s.line_end - 1))).flatten
      = [str "intro", str "# A", str "y"] ∧
    ∀ s ∈ split_sections (str "a.md") [str "intro", str "# A", str "y"],
      s.text = strip (joinNl (sliceLines [str "intro", str "# A", str "y"]
        (s.line_start - 1) (s.line_end - 1))) :=
  split_sections_concat (str "a.md") [str "intro", str "# A", str "y"]
    (by exact ⟨str "# A", by decide, by decide⟩)

/-! ### vault_index.py: alias derivation -/

/-- The class `[a-zæøå]` of `_split_camel`. -/
def isLowerCh (c : Char) : Bool :=
  ('a' ≤ c && c ≤ 'z') || c = 'æ' || c = 'ø' || c = 'å'

/-- The class `[A-ZÆØÅ]` of `_split_camel`. -/
def isUpperCh (c : Char) : Bool :=
  ('A' ≤ c && c ≤ 'Z') || c = 'Æ' || c = 'Ø' || c = 'Å'

/-- One `re.sub(r"(C1)(C2)", r"\1 \2", text)` pass: insert a space between
every non-overlapping adjacent pair matching the two classes, scanning left
to right and resuming after each match. -/
def insertPass (p1 p2 : Char → Bool) : Str → Str
  | [] => []
  | [c] => [c]
  | c :: d :: rest =>
    if p1 c && p2 d then c :: ' ' :: d :: insertPass p1 p2 rest
    else c :: insertPass p1 p2 (d :: rest)

/-- `VaultIndex._split_camel` from vault_index.py: three boundary-splitting
substitution passes. -/
def split_camel (t : Str) : Str :=
  insertPass isLetterCh Char.isDigit
    (insertPass Char.isDigit isLetterCh (insertPass isLowerCh isUpperCh t))

/-- Worker for `collapseWs`: `prevSpace` records whether the previous
character was whitespace (already emitted as one space). -/
def collapseWsAux (prevSpace : Bool) : Str → Str
  | [] => []
  | c :: rest =>
    if isSpaceCh c then
      if prevSpace then collapseWsAux true rest
      else ' ' :: collapseWsAux true rest
    else c :: collapseWsAux false rest

/-- `re.sub(r"\s+", " ", s)`: collapse every whitespace run to one space. -/
def collapseWs (s : Str) : Str := collapseWsAux false s

/-- Python `str.isdigit` on the tokens in play: non-empty and all digits. -/
def isdigitS (t : Str) : Bool := !t.isEmpty && t.all (·.isDigit)

/-- Python `sorted` on strings: stable sort by the lexicographic
code-point order (the order of chained `List Char` comparison). -/
def pySortedStr (l : List Str) : List Str := l.insertionSort (· ≤ ·)

/-- `VaultIndex._build_aliases` from vault_index.py.  The Python sets are
modelled as lists deduplicated before the final `sorted`, which yields the
same sorted list of distinct aliases. -/
def build_aliases (title : Str) (filename : Str) : List Str :=
  let base := splitextRoot filename
  let variants : List Str :=
    [title, base, replaceAll (str "-") (str " ") base,
      replaceAll (str "_") (str " ") base]
  let expanded : List Str :=
    variants.flatMap fun v => if v.isEmpty then [] else [v, split_camel v]
  let aliases : List Str := expanded.flatMap fun v =>
    let cleaned := strip (collapseWs v)
    if cleaned.isEmpty then []
    else
      let lowered := lowerS cleaned
      let tokens0 := wordTokens lowered
      let tokens :=
        match tokens0 with
        | t0 :: t1 :: rest2 =>
          if t0 = str "gs" && isdigitS t1 then (str "gs" ++ t1) :: rest2 else tokens0
        | _ => tokens0
      [lowered]
      ++ (if 2 ≤ tokens.length then [joinSp (tokens.take 2)] else [])
      ++ (if 3 ≤ tokens.length then [joinSp (tokens.take 3)] else [])
      ++ (match tokens with
          | t0 :: _ :: _ =>
            if (str "gs1").isPrefixOf t0 then [joinSp ((tokens.drop 1).take 2)] else []
          | _ => [])
  pySortedStr aliases.dedup

/-- Claim C8: for filename `"GS1_Denmark-Overview.md"` with no in-body
heading, the detected title is `"GS1 Denmark Overview"` and the derived
alias set is exactly the twelve lowercased variants below — the lowercased
title and filename variants, the camel/number-boundary-split variants and
the 2- and 3-token prefixes of the tokenized variants, with the leading
`"gs" "1"` token pair collapsed to `"gs1"` (so in particular
`"gs1 denmark"` is an alias). -/
theorem build_aliases_gs1 :
    detect_title [str "Some body text"] (str "GS1_Denmark-Overview.md")
      = str "GS1 Denmark Overview" ∧
    build_aliases (str "GS1 Denmark Overview") (str "GS1_Denmark-Overview.md") =
      [str "denmark overview", str "gs 1 denmark overview",
       str "gs 1 denmark-overview", str "gs 1_denmark",
       str "gs 1_denmark overview", str "gs 1_denmark-overview",
       str "gs1 denmark", str "gs1 denmark overview",
       str "gs1 denmark-overview", str "gs1_denmark overview",
       str "gs1_denmark-overview", str "overview"] ∧
    str "gs1 denmark"
      ∈ build_aliases (str "GS1 Denmark Overview") (str "GS1_Denmark-Overview.md") ∧
    str "gs1 denmark overview"
      ∈ build_aliases (str "GS1 Denmark Overview") (str "GS1_Denmark-Overview.md") ∧
    str "gs 1 denmark overview"
      ∈ build_aliases (str "GS1 Denmark Overview") (str "GS1_Denmark-Overview.md") ∧
    str "gs1_denmark-overview"
      ∈ build_aliases (str "GS1 Denmark Overview") (str "GS1_Denmark-Overview.md") := by
  refine ⟨by decide, by decide, by decide, by decide, by decide, by decide⟩

/-! ### vault_index.py: lexical search over sections -/

/-- The in-memory state of a `VaultIndex`: its `sections` list and its
`notes` mapping (a Python dict, modelled as an association list with the
dict's insertion order). -/
structure VaultIndex where
  sections : List Section
  notes : List (Str × NoteMeta)
deriving Repr

/-- `VaultIndex._score_section` from vault_index.py. -/
def score_section (sec : Section) (tokens : List Str) (query_lower : Str) : Nat :=
  let text_lower := lowerS sec.text
  let heading_lower := lowerS sec.heading
  let path_lower := lowerS sec.path
  let base := tokens.foldl (fun acc token =>
    if token.isEmpty then acc
    else acc + countOccs token text_lower + 3 * countOccs token heading_lower
      + 2 * countOccs token path_lower) 0
  if isSubstrB query_lower text_lower then base + 8 else base

/-- The alias boost of `find_sections`: 20 when the section's document is
known and one of its aliases occurs in the lowercased query. -/
def note_boost (idx : VaultIndex) (sec : Section) (query_lower : Str) : Nat :=
  match List.lookup sec.path idx.notes with
  | some meta => if meta.aliases.any (fun a => isSubstrB a query_lower) then 20 else 0
  | none => 0

/-- Descending-score comparison used by `find_sections`: Python's
`sort(key=..., reverse=True)` is a stable descending sort. -/
def scoreGe (a b : Section) : Prop := b.score ≤ a.score

instance : DecidableRel scoreGe := fun a b => Nat.decLe b.score a.score

instance : IsTotal Section scoreGe := ⟨fun a b => Nat.le_total b.score a.score⟩

instance : IsTrans Section scoreGe := ⟨fun _ _ _ hab hbc => Nat.le_trans hbc hab⟩

/-- `VaultIndex.find_sections` from vault_index.py: score every stored
section, keep fresh copies of the strictly-positive ones, sort stably by
descending score and take the first `top_k`.  (Python's stable `list.sort`
is modelled by stable insertion sort, which computes the same list for the
total preorder used here.) -/
def find_sections (idx : VaultIndex) (query : Str) (top_k : Nat) : List Section :=
  let query_lower := lowerS query
  let tokens := (wordTokens query_lower).map lowerS
  if tokens.isEmpty then []
  else
    let results := idx.sections.filterMap fun sec =>
      let score := note_boost idx sec query_lower + score_section sec tokens query_lower
      if 0 < score then
        some ⟨sec.path, sec.heading, sec.line_start, sec.line_end, sec.text, score⟩
      else none
    (results.insertionSort scoreGe).take top_k

/-- The score formula exactly as the specification words it: alias boost,
plus per-token body count and 3-weighted heading count and 2-weighted path
count, plus 8 for a whole-query substring hit in the body. -/
def spec_score (idx : VaultIndex) (sec : Section) (query : Str) : Nat :=
  let q := lowerS query
  (if ((List.lookup sec.path idx.notes).elim [] NoteMeta.aliases).any
      (fun a => isSubstrB a q) then 20 else 0)
  + (((wordTokens q).map lowerS).foldl (fun acc t =>
      acc + countOccs t (lowerS sec.text) + 3 * countOccs t (lowerS sec.heading)
        + 2 * countOccs t (lowerS sec.path)) 0)
  + (if isSubstrB q (lowerS sec.text) then 8 else 0)

/-- Word tokens are never empty strings. -/
lemma wordTokensAux_ne_nil :
    ∀ (s : Str) (acc : Str) (t : Str), t ∈ wordTokensAux acc s → t ≠ [] := by
  intro s
  induction s with
  | nil =>
    intro acc t ht
    rw [wordTokensAux] at ht
    by_cases hacc : acc.isEmpty
    · rw [if_pos hacc] at ht
      simp at ht
    · rw [if_neg hacc] at ht
      rcases List.mem_singleton.mp ht with rfl
      simpa [List.isEmpty_iff] using hacc
  | cons c rest ih =>
    intro acc t ht
    rw [wordTokensAux] at ht
    by_cases hw : isWordCh c
    · rw [if_pos hw] at ht
      exact ih _ t ht
    · rw [if_neg hw] at ht
      by_cases hacc : acc.isEmpty
      · rw [if_pos hacc] at ht
        exact ih _ t ht
      · rw [if_neg hacc] at ht
        rcases List.mem_cons.mp ht with rfl | ht
        · simpa [List.isEmpty_iff] using hacc
        · exact ih _ t ht

lemma wordTokens_ne_nil {s t : Str} (h : t ∈ wordTokens s) : t ≠ [] :=
  wordTokensAux_ne_nil s [] t h

/-- On token lists without empty tokens, the guarded scoring fold of
`_score_section` agrees with the unguarded fold of the specification. -/
lemma foldl_score_eq (A B C : Str) :
    ∀ (tokens : List Str) (n : Nat), (∀ t ∈ tokens, t ≠ []) →
      tokens.foldl (fun acc token =>
        if token.isEmpty then acc
        else acc + countOccs token A + 3 * countOccs token B
          + 2 * countOccs token C) n
      = tokens.foldl (fun acc t =>
          acc + countOccs t A + 3 * countOccs t B + 2 * countOccs t C) n := by
  intro tokens
  induction tokens with
  | nil => intro n _; rfl
  | cons t ts ih =>
    intro n hne
    have ht : t ≠ [] := hne t (List.mem_cons_self _ _)
    simp only [List.foldl_cons]
    rw [if_neg (by simpa [List.isEmpty_iff] using ht)]
    exact ih _ (fun u hu => hne u (List.mem_cons_of_mem _ hu))

/-- The code's score for a section equals the specification's formula. -/
lemma code_score_eq_spec_score (idx : VaultIndex) (sec : Section) (query : Str) :
    note_boost idx sec (lowerS query)
      + score_section sec ((wordTokens (lowerS query)).map lowerS) (lowerS query)
      = spec_score idx sec query := by
  rw [spec_score, note_boost, score_section]
  have hne : ∀ t ∈ (wordTokens (lowerS query)).map lowerS, t ≠ [] := by
    intro t ht
    rcases List.mem_map.mp ht with ⟨u, hu, rfl⟩
    have := wordTokens_ne_nil hu
    intro hcon
    exact this (by simpa [lowerS] using hcon)
  rw [foldl_score_eq _ _ _ _ 0 hne]
  cases hl : List.lookup sec.path idx.notes with
  | none =>
    cases hq : isSubstrB (lowerS query) (lowerS sec.text) <;>
      simp only [hq, Option.elim, List.any_nil, Bool.false_eq_true, if_false, if_true] <;>
        omega
  | some meta =>
    cases ha : meta.aliases.any (fun a => isSubstrB a (lowerS query)) <;>
      cases hq : isSubstrB (lowerS query) (lowerS sec.text) <;>
        simp only [ha, hq, Option.elim, Bool.false_eq_true, if_false, if_true] <;>
          omega

/-- Claim C3: `find_sections` returns at most `top_k` sections, each with
strictly positive score, stably sorted by descending score, where each
returned section is a copy of a stored section carrying exactly the
specification's score formula; an empty token list yields an empty
result. -/
theorem find_sections_spec (idx : VaultIndex) (query : Str) (top_k : Nat) :
    ((wordTokens (lowerS query)).map lowerS = [] →
      find_sections idx query top_k = []) ∧
    (find_sections idx query top_k).length ≤ top_k ∧
    (find_sections idx query top_k).Pairwise scoreGe ∧
    (∀ s ∈ find_sections idx query top_k, ∃ s0 ∈ idx.sections,
      0 < spec_score idx s0 query ∧
      s = ⟨s0.path, s0.heading, s0.line_start, s0.line_end, s0.text,
        spec_score idx s0 query⟩) := by
  refine ⟨?_, ?_, ?_, ?_⟩
  · intro h
    rw [find_sections]
    simp [h]
  · by_cases htok : ((wordTokens (lowerS query)).map lowerS).isEmpty
    · rw [find_sections]
      simp [htok]
    · rw [find_sections]
      simp only [htok, Bool.false_eq_true, if_false]
      exact List.length_take_le _ _
  · by_cases htok : ((wordTokens (lowerS query)).map lowerS).isEmpty
    · rw [find_sections]
      simp [htok]
    · rw [find_sections]
      simp only [htok, Bool.false_eq_true, if_false]
      refine List.Pairwise.sublist (List.take_sublist _ _) ?_
      exact List.sorted_insertionSort scoreGe _
  · intro s hs
    by_cases htok : ((wordTokens (lowerS query)).map lowerS).isEmpty
    · rw [find_sections] at hs
      simp [htok] at hs
    · rw [find_sections] at hs
      simp only [htok, Bool.false_eq_true, if_false] at hs
      have hs2 := List.mem_of_mem_take hs
      rw [List.mem_insertionSort] at hs2
      rcases List.mem_filterMap.mp hs2 with ⟨s0, hs0, hf⟩
      by_cases hpos : 0 < note_boost idx s0 (lowerS query)
          + score_section s0 ((wordTokens (lowerS query)).map lowerS) (lowerS query)
      · rw [if_pos hpos] at hf
        refine ⟨s0, hs0, ?_, ?_⟩
        · rwa [code_score_eq_spec_score] at hpos
        · rw [← code_score_eq_spec_score]
          exact (Option.some_inj.mp hf).symm
      · rw [if_neg hpos] at hf
        simp at hf

/-- Witness for C3 on a one-section index and the query `"basis pris"`. -/
theorem find_sections_spec_witness :
    ((wordTokens (lowerS (str "basis pris"))).map lowerS = [] →
      find_sections
        ⟨[⟨str "a.md", str "Pricing", 1, 1, str "basis 499 kr", 0⟩], []⟩
        (str "basis pris") 1 = []) ∧
    (find_sections
        ⟨[⟨str "a.md", str "Pricing", 1, 1, str "basis 499 kr", 0⟩], []⟩
        (str "basis pris") 1).length ≤ 1 ∧
    (find_sections
        ⟨[⟨str "a.md", str "Pricing", 1, 1, str "basis 499 kr", 0⟩], []⟩
        (str "basis pris") 1).Pairwise scoreGe ∧
    (∀ s ∈ find_sections
        ⟨[⟨str "a.md", str "Pricing", 1, 1, str "basis 499 kr", 0⟩], []⟩
        (str "basis pris") 1,
      ∃ s0 ∈ ([⟨str "a.md", str "Pricing", 1, 1, str "basis 499 kr", 0⟩] :
          List Section),
        0 < spec_score ⟨[⟨str "a.md", str "Pricing", 1, 1, str "basis 499 kr", 0⟩], []⟩
            s0 (str "basis pris") ∧
        s = ⟨s0.path, s0.heading, s0.line_start, s0.line_end, s0.text,
          spec_score ⟨[⟨str "a.md", str "Pricing", 1, 1, str "basis 499 kr", 0⟩], []⟩
            s0 (str "basis pris")⟩) :=
  find_sections_spec
    ⟨[⟨str "a.md", str "Pricing", 1, 1, str "basis 499 kr", 0⟩], []⟩
    (str "basis pris") 1

/-- `find_sections` translated with explicit state passing: the method body
reads `self.sections` and `self.notes`, builds a fresh result list of
copies, and assigns no attribute of `self`, so the state it returns is the
input state. -/
def find_sections_st (idx : VaultIndex) (query : Str) (top_k : Nat) :
    List Section × VaultIndex :=
  (find_sections idx query top_k, idx)

/-- Claim C10: `find_sections` leaves the index state unchanged — the
stored sections (with their score fields) and the notes map are exactly the
pre-call ones — and a second call with the same query and `top_k` on the
resulting state returns the same result list. -/
theorem find_sections_frame (idx : VaultIndex) (query : Str) (top_k : Nat) :
    (find_sections_st idx query top_k).2 = idx ∧
    ((find_sections_st idx query top_k).2).sections.map Section.score
      = idx.sections.map Section.score ∧
    ((find_sections_st idx query top_k).2).notes = idx.notes ∧
    (find_sections_st ((find_sections_st idx query top_k).2) query top_k).1
      = (find_sections_st idx query top_k).1 :=
  ⟨rfl, rfl, rfl, rfl⟩

/-! ### app.py: price pattern and text-cleaning helpers -/

/-- The character class `[\d\.,]` of `PRICE_PATTERN`'s number body. -/
def isPriceBodyCh (c : Char) : Bool := c.isDigit || c = '.' || c = ','

/-- `PRICE_PATTERN` (`(\d[\d\.,]*)\s*(dkk|kr\.?|\bkr\b)`, case-insensitive)
matched at the start of `s`: a digit, a greedy run of digits/dots/commas, a
greedy whitespace run, then `dkk`, or `kr` with an optional dot (the
`\bkr\b` alternative can never fire first, since `kr\.?` already matches).
The number body, the whitespace and the currency consume disjoint character
sets, so the greedy scan never needs to backtrack.  Returns
`(match.group(0), the rest of the line)`. -/
def matchPriceAt : Str → Option (Str × Str)
  | [] => none
  | c :: rest =>
    if c.isDigit then
      let body := (c :: rest).takeWhile isPriceBodyCh
      let afterBody := (c :: rest).drop body.length
      let ws := afterBody.takeWhile isSpaceCh
      let afterWs := afterBody.drop ws.length
      if lowerS (afterWs.take 3) = str "dkk" then
        some (body ++ ws ++ afterWs.take 3, afterWs.drop 3)
      else if lowerS (afterWs.take 2) = str "kr" then
        if (afterWs.drop 2).take 1 = ['.'] then
          some (body ++ ws ++ afterWs.take 3, afterWs.drop 3)
        else
          some (body ++ ws ++ afterWs.take 2, afterWs.drop 2)
      else none
    else none

/-- `PRICE_PATTERN.search`: the leftmost match, scanning position by
position.  Returns `(match.group(0), line[match.end():])`. -/
def searchPrice : Str → Option (Str × Str)
  | [] => none
  | c :: rest =>
    match matchPriceAt (c :: rest) with
    | some r => some r
    | none => searchPrice rest

/-- `_extract_price_from_line` from app.py. -/
def extract_price_from_line (line : Str) : Option Str :=
  match searchPrice line with
  | none => none
  | some (g0, after) =>
    let price := strip g0
    let suffix := strip after
    if suffix.isEmpty then some price
    else
      match splitWs suffix with
      | [] => some price
      | w :: rest =>
        if ['/'].isPrefixOf w || (str "pr").isPrefixOf (lowerS w)
            || (str "per").isPrefixOf (lowerS w) then
          some (strip (price ++ [' '] ++ joinSp ((w :: rest).take 2)))
        else some price

/-- Fuel-driven worker for the markdown-link substitution
`re.sub(r"\[([^\]]+)\]\([^)]+\)", r"\1", text)` of `_clean_text`: at each
`[`, greedily read a non-empty run of non-`]`, require `](`, greedily read
a non-empty run of non-`)`, require `)`; on success emit the link text and
resume after the match, otherwise emit the `[` and resume one character
later. -/
def stripLinkFuel : Nat → Str → Str
  | 0, s => s
  | _ + 1, [] => []
  | fuel + 1, c :: rest =>
    if c = '[' then
      let t1 := rest.takeWhile (· ≠ ']')
      let r1 := rest.drop t1.length
      match t1, r1 with
      | _ :: _, ']' :: '(' :: r2 =>
        let t2 := r2.takeWhile (· ≠ ')')
        let r3 := r2.drop t2.length
        match t2, r3 with
        | _ :: _, ')' :: r4 => t1 ++ stripLinkFuel fuel r4
        | _, _ => c :: stripLinkFuel fuel rest
      | _, _ => c :: stripLinkFuel fuel rest
    else c :: stripLinkFuel fuel rest

/-- The markdown-link substitution of `_clean_text`. -/
def stripLink (s : Str) : Str := stripLinkFuel s.length s

/-- `_clean_text` from app.py. -/
def clean_text (t : Str) : Str :=
  let t1 := stripLink t
  let t2 := replaceAll (str "**") [] t1
  let t3 := replaceAll (str "*") [] t2
  let t4 := stripSet ['-', ':', '•', '\t', ' '] (strip t3)
  strip (collapseWs t4)

/-- `_has_letters` from app.py. -/
def has_letters (t : Str) : Bool := t.any isLetterCh

/-- `LABEL_STOP` from app.py. -/
def LABEL_STOP : List Str :=
  [str "pris", str "price", str "abonnement", str "billedpakker",
   str "certificering", str "pakker", str "pakken"]

/-- `_is_stop_label` from app.py. -/
def is_stop_label (t : Str) : Bool :=
  LABEL_STOP.contains (stripSet [' ', ':', '\t'] (lowerS t))

/-- `_name_from_line` from app.py. -/
def name_from_line (line : Str) (price : Option Str) : Str :=
  if line.isEmpty then []
  else
    let cleaned0 := clean_text line
    let cleaned1 :=
      match price with
      | some p => strip (replaceAll p [] cleaned0)
      | none => cleaned0
    let cleaned := stripSet ['-', ':', '•', '\t', ' '] cleaned1
    if cleaned.isEmpty then []
    else
      let lowered := lowerS cleaned
      if is_stop_label lowered then []
      else if [str "/ år", str "/ aar", str "/år", str "pr. år",
          str "pr år"].contains lowered then []
      else if !has_letters cleaned then []
      else if cleaned.length ≤ 2 then []
      else cleaned

/-- Worker for `_collect_label`: the first argument is `j + 1` for the
current 0-based scan index `j` (zero meaning the scan has run past the
first line), so the recursion is structural. -/
def collectLabelAux (lines : List Str) (maxLines : Nat) : Nat → List Str → List Str
  | 0, collected => collected
  | j + 1, collected =>
    if maxLines ≤ collected.length then collected
    else
      let raw := strip (lines.getD j [])
      if raw.isEmpty then
        if !collected.isEmpty then collected
        else collectLabelAux lines maxLines j collected
      else if raw.head? = some '#' then collectLabelAux lines maxLines j collected
      else
        let candidate := clean_text raw
        if candidate.isEmpty then collectLabelAux lines maxLines j collected
        else if is_stop_label candidate then collectLabelAux lines maxLines j collected
        else collectLabelAux lines maxLines j (candidate :: collected)

/-- `_collect_label` from app.py: walk backwards from the line before
`idx`, gathering up to `maxLines` cleaned non-stop labels. -/
def collect_label (lines : List Str) (idx : Nat) (maxLines : Nat) : Str :=
  strip (joinSp (collectLabelAux lines maxLines idx []))

/-- Python `str.split(sep)` for a one-character separator, keeping empty
fields. -/
def splitOnCharAux (sep : Char) (acc : Str) : Str → List Str
  | [] => [acc.reverse]
  | c :: rest =>
    if c = sep then acc.reverse :: splitOnCharAux sep [] rest
    else splitOnCharAux sep (c :: acc) rest

def splitOnChar (sep : Char) (s : Str) : List Str := splitOnCharAux sep [] s

/-- `_parse_table_row` from app.py. -/
def parse_table_row (line : Str) : Option (List Str) :=
  if !line.contains '|' then none
  else
    let stripped := strip line
    if stripped.isEmpty then none
    else if stripped.all (fun c => c = '|' || c = '-' || c = ':' || c = ' ') then none
    else
      let cells := (splitOnChar '|' (stripSet ['|'] stripped)).map strip
      some (cells.filter (fun c => !c.isEmpty))

/-! ### app.py: price item extraction -/

/-- `CONTINUATION_PREFIXES` from app.py. -/
def CONTINUATION_PREFIXES : List Str :=
  [str "inkl", str "inkl.", str "inklusive", str "pr.", str "pr", str "per", str "/"]

/-- A price item of `extract_price_items` (a Python dict with these keys). -/
structure PriceItem where
  name : Str
  price : Str
  path : Str
  heading : Str
  line_start : Nat
  line_end : Nat
deriving DecidableEq, Repr

/-- The deduplication key of `extract_price_items`. -/
def itemKey (it : PriceItem) : Str × Str × Str × Str × Nat :=
  (it.path, it.heading, it.name, it.price, it.line_start)

/-- The table-row branch of `extract_price_items`'s scan loop. -/
def tableItem (sec : Section) (lines : List Str) (idx : Nat)
    (cells : List Str) : List PriceItem :=
  match cells.find? (fun c => (searchPrice c).isSome) with
  | none => []
  | some price_cell =>
    let price := extract_price_from_line price_cell
    let name1 := (cells.filterMap (fun c =>
      if c = price_cell then none
      else
        let cand := name_from_line c none
        if !cand.isEmpty && !is_stop_label cand then some cand else none)).head?
    let name :=
      match name1 with
      | some nm => nm
      | none => collect_label lines idx 4
    match price with
    | some p =>
      if !name.isEmpty && !p.isEmpty then
        [⟨name, p, sec.path, sec.heading,
          sec.line_start + max (idx - 1) 0, sec.line_start + idx⟩]
      else []
    | none => []

/-- The plain-line branch of `extract_price_items`'s scan loop. -/
def plainItem (sec : Section) (lines : List Str) (idx : Nat)
    (line : Str) : List PriceItem :=
  match extract_price_from_line line with
  | none => []
  | some price =>
    let name0 := name_from_line line (some price)
    let name1 := if name0.isEmpty then collect_label lines idx 4 else name0
    if name1.isEmpty then []
    else
      let name :=
        if CONTINUATION_PREFIXES.any (fun p => p.isPrefixOf (lowerS name1)) then
          let extended := collect_label lines idx 4
          if !extended.isEmpty && extended ≠ name1 then extended else name1
        else name1
      [⟨name, price, sec.path, sec.heading,
        sec.line_start + max (idx - 1) 0, sec.line_start + idx⟩]

/-- One iteration of the line scan: a non-empty parsed table row goes to the
table branch (and the loop `continue`s), anything else to the plain
branch. -/
def lineItems (sec : Section) (lines : List Str) (idx : Nat)
    (line : Str) : List PriceItem :=
  match parse_table_row line with
  | some (c :: cs) => tableItem sec lines idx (c :: cs)
  | _ => plainItem sec lines idx line

/-- The `seen`-set deduplication pass of `extract_price_items`, keeping the
first item for each key. -/
def dedupByKey : List PriceItem → List (Str × Str × Str × Str × Nat) → List PriceItem
  | [], _ => []
  | it :: rest, seen =>
    if itemKey it ∈ seen then dedupByKey rest seen
    else it :: dedupByKey rest (itemKey it :: seen)

/-- Ascending Python-tuple order on `(path, line_start)` used by the final
sort of `extract_price_items`. -/
def itemLe (x y : PriceItem) : Prop :=
  x.path < y.path ∨ (x.path = y.path ∧ x.line_start ≤ y.line_start)

instance : DecidableRel itemLe := fun a b =>
  inferInstanceAs (Decidable (a.path < b.path ∨ (a.path = b.path ∧ a.line_start ≤ b.line_start)))

instance : IsTotal PriceItem itemLe :=
  ⟨fun x y => by
    rcases lt_trichotomy x.path y.path with h | h | h
    · exact Or.inl (Or.inl h)
    · rcases Nat.le_total x.line_start y.line_start with h2 | h2
      · exact Or.inl (Or.inr ⟨h, h2⟩)
      · exact Or.inr (Or.inr ⟨h.symm, h2⟩)
    · exact Or.inr (Or.inl h)⟩

instance : IsTrans PriceItem itemLe :=
  ⟨fun x y z hxy hyz => by
    rcases hxy with h1 | ⟨e1, l1⟩
    · rcases hyz with h2 | ⟨e2, _⟩
      · exact Or.inl (h1.trans h2)
      · exact Or.inl (e2 ▸ h1)
    · rcases hyz with h2 | ⟨e2, l2⟩
      · exact Or.inl (e1 ▸ h2)
      · exact Or.inr ⟨e1.trans e2, Nat.le_trans l1 l2⟩⟩

/-- `extract_price_items` from app.py: scan every line of every section,
deduplicate by `(path, heading, name, price, line_start)` keeping first
occurrences, and stably sort ascending by `(path, line_start)` (Python's
stable `list.sort`, modelled by stable insertion sort). -/
def extract_price_items (sections : List Section) : List PriceItem :=
  let items := sections.flatMap fun sec =>
    let lines := splitLinesPy sec.text
    lines.enum.flatMap fun p => lineItems sec lines p.1 p.2
  (dedupByKey items []).insertionSort itemLe

/-! ### Facts about the extraction pipeline -/

/-- A match of the price pattern starts with a digit. -/
lemma matchPriceAt_digit {s g0 after : Str}
    (h : matchPriceAt s = some (g0, after)) :
    ∃ c g', g0 = c :: g' ∧ c.isDigit = true := by
  cases s with
  | nil => simp [matchPriceAt] at h
  | cons c rest =>
    rw [matchPriceAt] at h
    by_cases hd : c.isDigit
    · rw [if_pos hd] at h
      simp only at h
      have hbody : (c :: rest).takeWhile isPriceBodyCh
          = c :: rest.takeWhile isPriceBodyCh :=
        List.takeWhile_cons_of_pos (by simp [isPriceBodyCh, hd])
      split at h
      · injection h with h2
        injection h2 with hA hB
        subst hA
        rw [hbody, List.cons_append, List.cons_append]
        exact ⟨c, _, rfl, hd⟩
      · split at h
        · split at h
          · injection h with h2
            injection h2 with hA hB
            subst hA
            rw [hbody, List.cons_append, List.cons_append]
            exact ⟨c, _, rfl, hd⟩
          · injection h with h2
            injection h2 with hA hB
            subst hA
            rw [hbody, List.cons_append, List.cons_append]
            exact ⟨c, _, rfl, hd⟩
        · simp at h
    · rw [if_neg hd] at h
      simp at h

/-- A found price-pattern match starts with a digit. -/
lemma searchPrice_digit {s g0 after : Str}
    (h : searchPrice s = some (g0, after)) :
    ∃ c g', g0 = c :: g' ∧ c.isDigit = true := by
  induction s with
  | nil => simp [searchPrice] at h
  | cons c rest ih =>
    rw [searchPrice] at h
    cases hm : matchPriceAt (c :: rest) with
    | some r =>
      rw [hm] at h
      rcases Option.some_inj.mp h with rfl
      exact matchPriceAt_digit hm
    | none =>
      rw [hm] at h
      exact ih h

/-- A digit is not whitespace. -/
lemma digit_not_space {c : Char} (h : c.isDigit = true) : isSpaceCh c = false := by
  rw [isSpaceCh]
  simp only [Bool.or_eq_false_iff, decide_eq_false_iff_not]
  refine ⟨⟨⟨⟨⟨?_, ?_⟩, ?_⟩, ?_⟩, ?_⟩, ?_⟩ <;> (intro hc; subst hc; exact absurd h (by decide))

/-- A non-`p` element of a list survives `dropWhile p`. -/
lemma mem_dropWhile_of_not {p : Char → Bool} {c : Char} {l : Str}
    (hc : p c = false) (hm : c ∈ l) : c ∈ l.dropWhile p := by
  have hsplit := List.takeWhile_append_dropWhile (p := p) (l := l)
  rw [← hsplit] at hm
  rcases List.mem_append.mp hm with hm | hm
  · have := List.mem_takeWhile_imp hm
    rw [hc] at this
    cases this
  · exact hm

/-- A non-whitespace element survives `strip`. -/
lemma mem_strip {c : Char} {s : Str} (hc : isSpaceCh c = false) (hm : c ∈ s) :
    c ∈ strip s := by
  rw [strip, rstrip, lstrip]
  have h1 : c ∈ s.dropWhile isSpaceCh := mem_dropWhile_of_not hc hm
  have h2 : c ∈ (s.dropWhile isSpaceCh).reverse := List.mem_reverse.mpr h1
  exact List.mem_reverse.mpr (mem_dropWhile_of_not hc h2)

/-- A recognised price is a non-empty string. -/
lemma extract_price_ne_nil {line p : Str}
    (h : extract_price_from_line line = some p) : p ≠ [] := by
  rw [extract_price_from_line] at h
  cases hs : searchPrice line with
  | none => rw [hs] at h; cases h
  | some r =>
    obtain ⟨g0, after⟩ := r
    rw [hs] at h
    simp only at h
    rcases searchPrice_digit hs with ⟨c, g', rfl, hd⟩
    have hcsp : isSpaceCh c = false := digit_not_space hd
    have hcg : c ∈ strip (c :: g') := mem_strip hcsp (List.mem_cons_self _ _)
    split at h
    · rcases Option.some_inj.mp h with rfl
      exact List.ne_nil_of_mem hcg
    · split at h
      · rcases Option.some_inj.mp h with rfl
        exact List.ne_nil_of_mem hcg
      · split at h
        · rcases Option.some_inj.mp h with rfl
          refine List.ne_nil_of_mem (mem_strip hcsp ?_)
          exact List.mem_append_left _ (List.mem_append_left _ hcg)
        · rcases Option.some_inj.mp h with rfl
          exact List.ne_nil_of_mem hcg

/-- Items produced by the table branch have non-empty name and price. -/
lemma tableItem_ok {sec : Section} {lines : List Str} {idx : Nat}
    {cells : List Str} {it : PriceItem} (h : it ∈ tableItem sec lines idx cells) :
    it.name ≠ [] ∧ it.price ≠ [] := by
  rw [tableItem] at h
  split at h
  · simp at h
  · simp only at h
    split at h
    · split at h
      · rename_i hguard
        rcases List.mem_singleton.mp h with rfl
        rw [Bool.and_eq_true, Bool.not_eq_eq_eq_not, Bool.not_eq_eq_eq_not] at hguard
        simp only [Bool.not_true] at hguard
        exact ⟨List.isEmpty_eq_false.mp hguard.1, List.isEmpty_eq_false.mp hguard.2⟩
      · simp at h
    · simp at h

/-- Items produced by the plain-line branch have non-empty name and price. -/
lemma plainItem_ok {sec : Section} {lines : List Str} {idx : Nat}
    {line : Str} {it : PriceItem} (h : it ∈ plainItem sec lines idx line) :
    it.name ≠ [] ∧ it.price ≠ [] := by
  rw [plainItem] at h
  cases hp : extract_price_from_line line with
  | none => rw [hp] at h; simp at h
  | some price =>
    rw [hp] at h
    simp only at h
    cases h0 : (name_from_line line (some price)).isEmpty with
    | true =>
      simp only [h0, if_true] at h
      cases h1 : (collect_label lines idx 4).isEmpty with
      | true => simp only [h1, if_true] at h; simp at h
      | false =>
        simp only [h1, Bool.false_eq_true, if_false] at h
        rcases List.mem_singleton.mp h with rfl
        refine ⟨?_, extract_price_ne_nil hp⟩
        simp only
        split
        · split
          · exact List.isEmpty_eq_false.mp h1
          · exact List.isEmpty_eq_false.mp h1
        · exact List.isEmpty_eq_false.mp h1
    | false =>
      simp only [h0, Bool.false_eq_true, if_false] at h
      rcases List.mem_singleton.mp h with rfl
      refine ⟨?_, extract_price_ne_nil hp⟩
      simp only
      split
      · split
        · rename_i hext
          rw [Bool.and_eq_true] at hext
          exact List.isEmpty_eq_false.mp (by simpa using hext.1)
        · exact List.isEmpty_eq_false.mp h0
      · exact List.isEmpty_eq_false.mp h0

/-- Every produced line item has non-empty name and price. -/
lemma lineItems_ok {sec : Section} {lines : List Str} {idx : Nat}
    {line : Str} {it : PriceItem} (h : it ∈ lineItems sec lines idx line) :
    it.name ≠ [] ∧ it.price ≠ [] := by
  rw [lineItems] at h
  split at h
  · exact tableItem_ok h
  · exact plainItem_ok h

/-- Deduplicated items come from the input list. -/
lemma mem_dedupByKey : ∀ {items : List PriceItem}
    {seen : List (Str × Str × Str × Str × Nat)} {it : PriceItem},
    it ∈ dedupByKey items seen → it ∈ items := by
  intro items
  induction items with
  | nil => intro seen it h; simp [dedupByKey] at h
  | cons x rest ih =>
    intro seen it h
    rw [dedupByKey] at h
    split at h
    · exact List.mem_cons_of_mem _ (ih h)
    · rcases List.mem_cons.mp h with rfl | h
      · exact List.mem_cons_self _ _
      · exact List.mem_cons_of_mem _ (ih h)

/-- The deduplication pass keeps exactly one item per key and never emits a
key already seen. -/
lemma dedupByKey_nodup : ∀ (items : List PriceItem)
    (seen : List (Str × Str × Str × Str × Nat)),
    ((dedupByKey items seen).map itemKey).Nodup ∧
    ∀ k ∈ (dedupByKey items seen).map itemKey, k ∉ seen := by
  intro items
  induction items with
  | nil => intro seen; simp [dedupByKey]
  | cons x rest ih =>
    intro seen
    rw [dedupByKey]
    split
    · exact ih seen
    · rename_i hnot
      rcases ih (itemKey x :: seen) with ⟨hnd, hmem⟩
      constructor
      · rw [List.map_cons]
        refine List.nodup_cons.mpr ⟨?_, hnd⟩
        intro hcon
        exact hmem _ hcon (List.mem_cons_self _ _)
      · intro k hk
        rw [List.map_cons] at hk
        rcases List.mem_cons.mp hk with rfl | hk
        · exact hnot
        · intro hcon
          exact hmem k hk (List.mem_cons_of_mem _ hcon)

/-- Claim C5: every item returned by `extract_price_items` has a non-empty
name and a non-empty recognised price, no two returned items share the
deduplication key `(path, heading, name, price, line_start)`, and the
returned items are sorted ascending by `(path, line_start)`. -/
theorem extract_price_items_inv (sections : List Section) :
    (∀ it ∈ extract_price_items sections, it.name ≠ [] ∧ it.price ≠ []) ∧
    ((extract_price_items sections).map itemKey).Nodup ∧
    (extract_price_items sections).Pairwise itemLe := by
  refine ⟨?_, ?_, ?_⟩
  · intro it hit
    rw [extract_price_items] at hit
    simp only at hit
    rw [List.mem_insertionSort] at hit
    have hmem := mem_dedupByKey hit
    rcases List.mem_flatMap.mp hmem with ⟨sec, _, h2⟩
    rcases List.mem_flatMap.mp h2 with ⟨p, _, h3⟩
    exact lineItems_ok h3
  · rw [extract_price_items]
    simp only
    have hperm := List.perm_insertionSort itemLe (dedupByKey
      (sections.flatMap fun sec =>
        (splitLinesPy sec.text).enum.flatMap fun p =>
          lineItems sec (splitLinesPy sec.text) p.1 p.2) [])
    have hmap := hperm.map itemKey
    exact (hmap.nodup_iff).mpr (dedupByKey_nodup _ []).1
  · rw [extract_price_items]
    simp only
    exact List.sorted_insertionSort itemLe _

/-- Witness for C5 at the one-row pricing section. -/
theorem extract_price_items_inv_witness :
    (∀ it ∈ extract_price_items
        [⟨str "prices.md", str "Pricing", 1, 1, str "| Basis | 499 kr. |", 0⟩],
      it.name ≠ [] ∧ it.price ≠ []) ∧
    ((extract_price_items
        [⟨str "prices.md", str "Pricing", 1, 1, str "| Basis | 499 kr. |", 0⟩]).map
          itemKey).Nodup ∧
    (extract_price_items
        [⟨str "prices.md", str "Pricing", 1, 1, str "| Basis | 499 kr. |", 0⟩]).Pairwise
      itemLe :=
  extract_price_items_inv
    [⟨str "prices.md", str "Pricing", 1, 1, str "| Basis | 499 kr. |", 0⟩]

/-- Claim C9: a Section headed `"Pricing"` whose text is the table row
`"| Basis | 499 kr. |"` yields exactly one price item, named `"Basis"`
with price `"499 kr."`. -/
theorem extract_price_items_basis :
    extract_price_items
        [⟨str "prices.md", str "Pricing", 1, 1, str "| Basis | 499 kr. |", 0⟩]
      = [⟨str "Basis", str "499 kr.", str "prices.md", str "Pricing", 1, 1⟩] := by
  decide

/-- Claim C4 is false as stated for the continuation token `inkl`: on
`"100 kr inkl moms"` the price pattern matches `"100 kr"` and the first
following word is `inkl`, yet `_extract_price_from_line` returns the
unextended `"100 kr"` — its continuation test only accepts words starting
with `"/"`, `"pr"` or `"per"`, never `inkl`. -/
theorem extract_price_continuation_counterexample :
    searchPrice (str "100 kr inkl moms") = some (str "100 kr", str " inkl moms") ∧
    splitWs (strip (str " inkl moms")) = [str "inkl", str "moms"] ∧
    extract_price_from_line (str "100 kr inkl moms") = some (str "100 kr") ∧
    str "100 kr" ≠ str "100 kr inkl moms" := by
  refine ⟨by decide, by decide, by decide, by decide⟩

/-- Claim C4 (amended): when the price pattern matches and the first
whitespace-separated word after the match starts with `"/"`, or starts
case-insensitively with `"pr"` or `"per"` (which covers the tokens `/`,
`pr`, `pr.` and `per`, but not `inkl`), the extracted price is the matched
token extended with up to 2 following words of the same line. -/
theorem extract_price_continuation (line g0 after w : Str) (rest : List Str)
    (hsearch : searchPrice line = some (g0, after))
    (hwords : splitWs (strip after) = w :: rest)
    (hcont : (['/'].isPrefixOf w || (str "pr").isPrefixOf (lowerS w)
      || (str "per").isPrefixOf (lowerS w)) = true) :
    extract_price_from_line line =
      some (strip (strip g0 ++ [' '] ++ joinSp ((w :: rest).take 2))) := by
  rw [extract_price_from_line, hsearch]
  simp only
  have hne : (strip after).isEmpty = false := by
    cases hsa : strip after with
    | nil => rw [hsa] at hwords; simp [splitWs, splitWsAux] at hwords
    | cons c cs => rfl
  rw [hne]
  simp only [Bool.false_eq_true, if_false, hwords, hcont, if_true]

/-- Witness for C4 (amended) on `"499 kr. pr. år inkl moms"`. -/
theorem extract_price_continuation_witness :
    extract_price_from_line (str "499 kr. pr. år inkl moms") =
      some (strip (strip (str "499 kr.") ++ [' ']
        ++ joinSp (([str "pr.", str "år", str "inkl", str "moms"]).take 2))) :=
  extract_price_continuation (str "499 kr. pr. år inkl moms") (str "499 kr.")
    (str " pr. år inkl moms") (str "pr.") [str "år", str "inkl", str "moms"]
    (by decide) (by decide) (by decide)

/-! ### app.py: source-citation enforcement -/

/-- A Snippet of vault_tools.py. -/
structure Snippet where
  path : Str
  heading : Str
  line_start : Nat
  line_end : Nat
  excerpt : Str
  score : Nat
deriving DecidableEq, Repr

/-- The line scan of `parse_sources`: the Boolean is the `capture` flag. -/
def parseSourcesLines : Bool → List Str → List Str
  | _, [] => []
  | capture, line :: rest =>
    if (str "Sources:").isPrefixOf (strip line) then parseSourcesLines true rest
    else if capture then
      if (strip line).isEmpty then parseSourcesLines capture rest
      else if (strip line).head? = some '-' then
        (strip line).drop 2 :: parseSourcesLines capture rest
      else []
    else parseSourcesLines capture rest

/-- `parse_sources` from app.py. -/
def parse_sources (text : Str) : List Str :=
  if !isSubstrB (str "Sources:") text then []
  else parseSourcesLines false (splitLinesPy text)

/-- Python `text.split(needle)[0]`: the prefix before the first occurrence
of the needle (the whole string when the needle is absent). -/
def takeUntilSub (needle : Str) : Str → Str
  | [] => []
  | c :: rest =>
    if needle.isPrefixOf (c :: rest) then []
    else c :: takeUntilSub needle rest

/-- The citation format
`f"{snippet.path}#{snippet.heading} (lines {line_start}-{line_end})"`. -/
def citeOf (sn : Snippet) : Str :=
  sn.path ++ ['#'] ++ sn.heading ++ str " (lines "
    ++ natStr sn.line_start ++ ['-'] ++ natStr sn.line_end ++ [')']

/-- `ensure_sources` from app.py. -/
def ensure_sources (response : Str) (snippets : List Snippet) : Str × List Str :=
  let sources := parse_sources response
  if !sources.isEmpty then (response, sources)
  else
    let base :=
      if isSubstrB (str "Sources:") response then
        rstrip (takeUntilSub (str "Sources:") response)
      else response
    let fallback_sources := (snippets.take 3).map citeOf
    if !fallback_sources.isEmpty then
      (rstrip base ++ str "\n\nSources:\n"
        ++ joinNl (fallback_sources.map (fun src => str "- " ++ src)),
       fallback_sources)
    else (response, fallback_sources)

/-- `dropWhile` is idempotent. -/
lemma dropWhile_twice (p : Char → Bool) (l : Str) :
    (l.dropWhile p).dropWhile p = l.dropWhile p := by
  cases h : l.dropWhile p with
  | nil => rfl
  | cons c r =>
    have hc := List.head?_dropWhile_not p l
    rw [h] at hc
    simp only [List.head?_cons] at hc
    rw [List.dropWhile_cons, hc]
    simp

/-- `rstrip` is idempotent. -/
lemma rstrip_rstrip (s : Str) : rstrip (rstrip s) = rstrip s := by
  rw [rstrip, rstrip, List.reverse_reverse, dropWhile_twice]

/-- Claim C6 is false as stated on a response containing an unusable
`"Sources:"` block: the synthesis truncates the response at the first
`"Sources:"` marker, so content after it (here the line `"nothing"`) is
dropped, and the result is not the response extended with an appended
block. -/
theorem ensure_sources_counterexample :
    parse_sources (str "Answer\nSources:\nnothing") = [] ∧
    (ensure_sources (str "Answer\nSources:\nnothing")
        [⟨str "a.md", str "H", 1, 2, str "x", 0⟩]).1
      = str "Answer\n\nSources:\n- a.md#H (lines 1-2)" ∧
    isSubstrB (str "nothing") (str "Answer\nSources:\nnothing") = true ∧
    isSubstrB (str "nothing")
      ((ensure_sources (str "Answer\nSources:\nnothing")
        [⟨str "a.md", str "H", 1, 2, str "x", 0⟩]).1) = false := by
  refine ⟨by decide, by decide, by decide, by decide⟩

/-- Claim C6 (amended): for a response from which no sources parse and a
non-empty snippet list, `ensure_sources` returns the response truncated at
its first `"Sources:"` occurrence if one is present (right-stripped in
either case) with an appended synthesized `"Sources:"` block listing the
first `min(3, length)` snippets in order, and returns exactly those
citation strings. -/
theorem ensure_sources_fallback (response : Str) (snippets : List Snippet)
    (hnone : parse_sources response = []) (hne : snippets ≠ []) :
    ensure_sources response snippets =
      (rstrip (if isSubstrB (str "Sources:") response then
          takeUntilSub (str "Sources:") response
        else response)
        ++ str "\n\nSources:\n"
        ++ joinNl ((snippets.take 3).map (fun sn => str "- " ++ citeOf sn)),
       (snippets.take 3).map citeOf) := by
  rw [ensure_sources]
  simp only [hnone]
  rw [if_neg (by simp)]
  have hfb : ((snippets.take 3).map citeOf).isEmpty = false := by
    cases snippets with
    | nil => exact absurd rfl hne
    | cons sn rest => rfl
  rw [hfb]
  simp only [Bool.not_false, if_true, List.map_map]
  by_cases hin : isSubstrB (str "Sources:") response = true
  · rw [if_pos hin, if_pos hin, rstrip_rstrip]
    rfl
  · rw [if_neg hin, if_neg hin]
    rfl

/-- Witness for C6 (amended) on a response with no sources block and one
snippet. -/
theorem ensure_sources_fallback_witness :
    ensure_sources (str "An answer") [⟨str "a.md", str "H", 1, 2, str "x", 0⟩] =
      (rstrip (if isSubstrB (str "Sources:") (str "An answer") then
          takeUntilSub (str "Sources:") (str "An answer")
        else str "An answer")
        ++ str "\n\nSources:\n"
        ++ joinNl ((([⟨str "a.md", str "H", 1, 2, str "x", 0⟩] :
            List Snippet).take 3).map (fun sn => str "- " ++ citeOf sn)),
       (([⟨str "a.md", str "H", 1, 2, str "x", 0⟩] : List Snippet).take 3).map citeOf) :=
  ensure_sources_fallback (str "An answer") [⟨str "a.md", str "H", 1, 2, str "x", 0⟩]
    (by decide) (by decide)
